import Mathlib

/-!
Verification of the shape-decomposition engine (`src/mechanics/src/ordered_card.rs`).

This file gives a shallow embedding of the combinatorial enumeration functions of the
`shengji` mechanics crate and proves properties of them.

Conventions of the embedding:

* Rust `usize` values here are `Nat`; all involved quantities are small counts and no
  arithmetic overflows are reachable (values are bounded by the number of cards).
* `Vec<T>` is `List T`; `Vec::pop` from the back of a reversed vector is modelled by
  taking the head of the non-reversed list.
* Rust's `sort_by(|a, b| b.cmp(a))` is a stable sort by descending order.  A stable
  sort is uniquely determined by the comparator, so it is modelled by Mathlib's
  (stable) `List.insertionSort` with the relation `fun a b => b ≤ a`; the `Ord`
  instance on `Vec<usize>`/`Vec<Vec<usize>>` is lexicographic order, which is the
  `LinearOrder` on `List Nat` / `List (List Nat)`.
* `Vec::dedup` (removing *consecutive* duplicates) is `dedupAdjacent` below.
* `itertools`' `.unique()` (keep the first occurrence of each value) is `uniqueList`.
* `itertools`' `.permutations(len)` enumerates all index permutations in lexicographic
  index order; this is `itPermutations` below.
* `itertools`' `.multi_cartesian_product()` (first factor varies slowest) is `cartProd`.
* The `assert!` statements guarding `num >= 1` are modelled by `Option`-returning
  wrappers (`..._checked`); the unchecked functions are the in-contract behaviour and
  return junk (`[]`) at `0`, an input on which the Rust code panics.
* The process-wide memoization caches are pure (they only cache the function's own
  result), so they are not modelled.
-/

/-- The element type of a run: how many identical cards are played at one rank. -/
abbrev TupleSize := Nat

/-- Source type `AdjacentTupleSizes`: one run of tuple sizes at adjacent ranks. -/
abbrev AdjacentTupleSizes := List TupleSize

/-- Source type `PlayRequirements`: a decomposition, i.e. a list of runs. -/
abbrev PlayRequirements := List AdjacentTupleSizes

/-- Total number of cards described by a decomposition: sum over runs of run sums. -/
def decompTotal (d : PlayRequirements) : Nat :=
  (d.map (fun r => r.sum)).sum

/-- Keep the first occurrence of each element, in order (itertools `.unique()`),
accumulating the set of already-seen elements. -/
def uniqueAux [DecidableEq α] (seen : List α) : List α → List α
  | [] => []
  | x :: xs => if x ∈ seen then uniqueAux seen xs else x :: uniqueAux (x :: seen) xs

/-- Model of itertools `.unique()`: keep the first occurrence of each element, in order. -/
def uniqueList [DecidableEq α] (l : List α) : List α :=
  uniqueAux [] l

/-- Tail of adjacent deduplication: drop elements equal to the most recently kept
element `prev`, keep the others. -/
def dedupAdjacentGo [DecidableEq α] (prev : α) : List α → List α
  | [] => []
  | b :: rest =>
    if prev = b then dedupAdjacentGo prev rest else b :: dedupAdjacentGo b rest

/-- Remove *consecutive* duplicates, keeping the first element of each block
(Rust's `Vec::dedup`). -/
def dedupAdjacent [DecidableEq α] : List α → List α
  | [] => []
  | a :: rest => a :: dedupAdjacentGo a rest

/-- Descending stable sort, modelling Rust's stable `sort_by(|a, b| b.cmp(a))`. -/
def sortDesc [LinearOrder α] (l : List α) : List α :=
  l.insertionSort (· ≥ ·)

/-- All permutations of a list in itertools order (index-lexicographic): pick each
position in order as the first element and recurse on the rest.  The first argument
is fuel, always instantiated with the length of the list. -/
def itPermsAux : Nat → List Nat → List (List Nat)
  | 0, _ => [[]]
  | n + 1, l =>
    (List.range l.length).flatMap fun i =>
      (itPermsAux n (l.eraseIdx i)).map fun p => l.getD i 0 :: p

/-- Model of itertools `.permutations(l.len())`: all permutations in index-lexicographic
order. -/
def itPermutations (l : List Nat) : List (List Nat) :=
  itPermsAux l.length l

/-- Model of `p.iter().copied().permutations(p.len()).unique()` from the source. -/
def distinctPermutations (p : List Nat) : List (List Nat) :=
  uniqueList (itPermutations p)

/-- Model of itertools `.multi_cartesian_product()`: all ways to pick one element from
each list, first factor varying slowest. -/
def cartProd : List (List α) → List (List α)
  | [] => [[]]
  | l :: rest => l.flatMap fun x => (cartProd rest).map fun p => x :: p

/-- Increment the first occurrence of `v` in the list (the inner loop of
`find_tuple_partitions` with its `found` flag). -/
def incrementFirst (v : Nat) : List Nat → List Nat
  | [] => []
  | x :: rest => if x = v then (x + 1) :: rest else x :: incrementFirst v rest

/-- One step of partition generation: for each distinct value of `g` in first-occurrence
order, increment its first occurrence; then additionally append a trailing `1`. -/
def partitionStep (g : List Nat) : List (List Nat) :=
  (uniqueList g).map (fun v => incrementFirst v g) ++ [g ++ [1]]

/-- Embedding of `find_tuple_partitions`: all integer partitions of `num` in
descending lexicographic order.  The Rust function `assert!`s `num >= 1`; the `0`
case (junk value `[]`) is unreachable in contract and is guarded by
`find_tuple_partitions_checked`. -/
def find_tuple_partitions : Nat → List AdjacentTupleSizes
  | 0 => []
  | 1 => dedupAdjacent (sortDesc [[1]])
  | n + 2 =>
    dedupAdjacent (sortDesc ((find_tuple_partitions (n + 1)).flatMap partitionStep))

/-- Append `elem` to the `i`-th cluster of a set-partition (`list.push(elem)` on
`part.get_mut(i)`). -/
def insertIntoCluster (part : List (List Nat)) (i : Nat) (elem : Nat) :
    List (List Nat) :=
  part.set i (part.getD i [] ++ [elem])

/-- The inner loop of `compute_adjacent_assignments`: from one set-partition of
`{0, …, elem-1}`, produce the variants with `elem` inserted into each cluster,
followed by the variant where `elem` is a new singleton cluster. -/
def extendAssignment (elem : Nat) (part : List (List Nat)) :
    List (List (List Nat)) :=
  (List.range part.length).map (fun i => insertIntoCluster part i elem) ++
    [part ++ [[elem]]]

/-- The comparator used to sort assignments in the source
(`b_max_len.cmp(&a_max_len).then(a.len().cmp(&b.len()))`), phrased as the
"may come first" relation of a stable sort: `a` may precede `b` iff the comparator
does not return `Greater`. -/
def assignmentRel (a b : List (List Nat)) : Prop :=
  (b.map List.length).maximum < (a.map List.length).maximum ∨
    ((b.map List.length).maximum = (a.map List.length).maximum ∧
      a.length ≤ b.length)

instance : DecidableRel assignmentRel := fun a b => by
  unfold assignmentRel; infer_instance

/-- Embedding of `compute_adjacent_assignments`: all set partitions of
`{0, …, length-1}` into non-empty clusters, sorted by descending maximum cluster
size then ascending number of clusters (stable).  The Rust function `assert!`s
`length >= 1`; the `0` case (junk value `[]`) is unreachable in contract and is
guarded by `compute_adjacent_assignments_checked`. -/
def compute_adjacent_assignments : Nat → List (List (List Nat))
  | 0 => []
  | 1 => [[[0]]]
  | n + 2 =>
    dedupAdjacent
      (((compute_adjacent_assignments (n + 1)).flatMap
          (extendAssignment (n + 1))).insertionSort assignmentRel)

/-- Embedding of `group_into_sequential_tuples`: for tuple sizes `values` (all
`> 1` in contract), all ways to group them into ordered runs. -/
def group_into_sequential_tuples (values : List Nat) : List PlayRequirements :=
  uniqueList
    ((compute_adjacent_assignments values.length).flatMap fun assignment =>
      let vassign : PlayRequirements :=
        assignment.map fun sub => sub.map fun idx => values.getD idx 0
      if vassign.all (fun p => p.all (fun pp => pp == p.headD 0)) then
        [vassign]
      else
        cartProd (vassign.map distinctPermutations))

/-- Embedding of `full_decomposition_ordering`: every decomposition of
`num_cards` cards, most complex first.  The Rust function `assert!`s
`num_cards >= 1`; `0` is unreachable in contract and is guarded by
`full_decomposition_ordering_checked`. -/
def full_decomposition_ordering (num_cards : Nat) : List PlayRequirements :=
  uniqueList
    ((find_tuple_partitions num_cards).flatMap fun group =>
      let gt1 := group.takeWhile (fun v => v ≠ 1)
      let eq1 := group.dropWhile (fun v => v ≠ 1)
      if gt1.isEmpty then
        [eq1.map fun v => [v]]
      else
        (group_into_sequential_tuples gt1).map fun d =>
          sortDesc (d ++ eq1.map fun v => [v]))

/-- The `while let Some(v) = decomp.pop()` loop of
`subsequent_decomposition_ordering`: drop elements up to and including the first
one satisfying `p` (dropping everything when no element matches). -/
def dropThroughMatch (p : α → Bool) : List α → List α
  | [] => []
  | x :: rest => if p x then rest else dropThroughMatch p rest

/-- The per-iteration index comparator of the refinement loop: index `a` may precede
index `b` iff `b`'s remaining refinement queue is no longer than `a`'s. -/
def queueRel (queues : List (List PlayRequirements)) (ia ib : Nat) : Prop :=
  (queues.getD ib []).length ≤ (queues.getD ia []).length

instance (queues : List (List PlayRequirements)) : DecidableRel (queueRel queues) :=
  fun a b => by unfold queueRel; infer_instance

/-- Concatenation of the current states of all run indices, in the order of the
(re-sorted) index list, canonically sorted descending. -/
def mergedDecomp (current : List PlayRequirements) (h : List Nat) :
    PlayRequirements :=
  sortDesc (h.flatMap fun i => current.getD i [])

/-- The admissibility check of the refinement loop: every run index must be either
fully split into single-card runs or allowed to carry adjacency. -/
def admissible (canInc : List Bool) (current : List PlayRequirements)
    (h : List Nat) : Bool :=
  h.all fun i => (current.getD i []).all fun a => a.length == 1 || canInc.getD i false

/-- The body of the `loop` in `subsequent_decomposition_ordering`, with explicit
fuel.  Each iteration stably re-sorts the index list by descending remaining queue
length, pops the next refinement of the first index (stopping when its queue — the
longest one — is empty), installs it, and emits the merged decomposition if the
adjacency condition admits it.  The fuel is always instantiated with more than the
total number of stacked refinements, so the `0` case is never reached. -/
def subseqLoop (canInc : List Bool) :
    Nat → List (List PlayRequirements) → List PlayRequirements → List Nat →
      List PlayRequirements → List PlayRequirements
  | 0, _, _, _, acc => acc
  | fuel + 1, queues, current, h, acc =>
    match (h.insertionSort (queueRel queues)).head? with
    | none => acc
    | some idx =>
      match (queues.getD idx []).head? with
      | none => acc
      | some v =>
        subseqLoop canInc fuel (queues.set idx (queues.getD idx []).tail)
          (current.set idx v) (h.insertionSort (queueRel queues))
          (if admissible canInc (current.set idx v)
              (h.insertionSort (queueRel queues)) then
            acc ++ [mergedDecomp (current.set idx v)
              (h.insertionSort (queueRel queues))]
          else acc)

/-- The initial refinement queue of one (sorted) run `r`: the suffix of the full
decomposition ordering of `r`'s card count strictly after the single-run
decomposition `[r]` itself. -/
def initialQueue (r : AdjacentTupleSizes) : List PlayRequirements :=
  dropThroughMatch (fun v => v.length == 1 && v.head? == some r)
    (full_decomposition_ordering r.sum)

/-- Embedding of `subsequent_decomposition_ordering`: the ordered sequence of
strictly simpler decompositions reachable from `adj_reqs`. -/
def subsequent_decomposition_ordering (adj_reqs : PlayRequirements)
    (include_new_adjacency : Bool) : List PlayRequirements :=
  if adj_reqs.any (fun r => r.isEmpty) then []
  else
    subseqLoop ((adj_reqs.map sortDesc).map fun a =>
        include_new_adjacency || a.length > 1)
      ((((adj_reqs.map sortDesc).map initialQueue).map List.length).sum + 1)
      ((adj_reqs.map sortDesc).map initialQueue)
      ((adj_reqs.map sortDesc).map fun r => [r])
      (List.range (adj_reqs.map sortDesc).length)
      []

/-- Model of `assert!(num >= 1)` in `find_tuple_partitions`, a fallible wrapper:
`none` is the assertion failure. -/
def find_tuple_partitions_checked (num : Nat) : Option (List AdjacentTupleSizes) :=
  if 1 ≤ num then some (find_tuple_partitions num) else none

/-- Model of `assert!(length >= 1)` in `compute_adjacent_assignments`, a fallible
wrapper: `none` is the assertion failure. -/
def compute_adjacent_assignments_checked (length : Nat) :
    Option (List (List (List Nat))) :=
  if 1 ≤ length then some (compute_adjacent_assignments length) else none

/-- Model of `assert!(num_cards >= 1)` in `full_decomposition_ordering`, a
fallible wrapper: `none` is the assertion failure. -/
def full_decomposition_ordering_checked (num_cards : Nat) :
    Option (List PlayRequirements) :=
  if 1 ≤ num_cards then some (full_decomposition_ordering num_cards) else none

/-- Modelled from the spec (§4.4), for the refinement claim about
`group_into_sequential_tuples`: "for each clustering, each cluster's multiset of
values is expanded into an ordered run: if all values in the cluster are equal,
there is exactly one run (no permuting needed); otherwise every distinct
permutation of the cluster's values is a candidate run, and the cross product over
clusters yields one candidate decomposition per combination", flattened across
clusterings.  This is the candidate list before the final deduplication step. -/
def sequentialRunsSpecCandidates (values : List Nat) : List PlayRequirements :=
  (compute_adjacent_assignments values.length).flatMap fun assignment =>
    let vassign : PlayRequirements :=
      assignment.map fun sub => sub.map fun idx => values.getD idx 0
    cartProd (vassign.map fun p =>
      if p.all (fun pp => pp == p.headD 0) then [p] else distinctPermutations p)

/-- Keep the first element of each equivalence class of `eqv`, in order. -/
def uniqueByAux (eqv : α → α → Bool) (seen : List α) : List α → List α
  | [] => []
  | x :: xs =>
    if seen.any (fun s => eqv s x) then uniqueByAux eqv seen xs
    else x :: uniqueByAux eqv (x :: seen) xs

/-- Keep the first representative of each `eqv`-class, in order. -/
def uniqueBy (eqv : α → α → Bool) (l : List α) : List α :=
  uniqueByAux eqv [] l

/-- Modelled from the spec (§4.4): the reference construction with its final
deduplication performed "as unordered collections of runs", i.e. keeping one
representative of each permutation class of run lists. -/
def sequentialRunsSpecUnordered (values : List Nat) : List PlayRequirements :=
  uniqueBy (fun d e => decide (d.Perm e)) (sequentialRunsSpecCandidates values)

/-- The reference construction of the spec with the deduplication amended to exact
(ordered) equality of run lists — the behaviour the code actually has. -/
def sequentialRunsSpecOrdered (values : List Nat) : List PlayRequirements :=
  uniqueList (sequentialRunsSpecCandidates values)

/-- Stirling numbers of the second kind `S(n, c)`: the number of set partitions of an
`n`-element set into exactly `c` non-empty clusters, by the standard recurrence. -/
def stirling : Nat → Nat → Nat
  | 0, 0 => 1
  | 0, _ + 1 => 0
  | _ + 1, 0 => 0
  | n + 1, c + 1 => (c + 1) * stirling n (c + 1) + stirling n c

/-- Bell numbers: the number of set partitions of an `n`-element set, as the sum of
the Stirling numbers of the second kind. -/
def bell (n : Nat) : Nat :=
  ∑ c ∈ Finset.range (n + 1), stirling n c

/-! Utility lemmas. -/

theorem mem_of_mem_uniqueAux [DecidableEq α] {seen l : List α} {x : α}
    (h : x ∈ uniqueAux seen l) : x ∈ l := by
  induction l generalizing seen with
  | nil => simp [uniqueAux] at h
  | cons a t ih =>
    by_cases ha : a ∈ seen
    · simp only [uniqueAux, if_pos ha] at h
      exact List.mem_cons_of_mem _ (ih h)
    · simp only [uniqueAux, if_neg ha, List.mem_cons] at h
      rcases h with h | h
      · exact h ▸ List.mem_cons_self _ _
      · exact List.mem_cons_of_mem _ (ih h)

theorem mem_uniqueAux_of_mem [DecidableEq α] {seen l : List α} {x : α}
    (hx : x ∈ l) (hs : x ∉ seen) : x ∈ uniqueAux seen l := by
  induction l generalizing seen with
  | nil => cases hx
  | cons a t ih =>
    by_cases ha : a ∈ seen
    · simp only [uniqueAux, if_pos ha]
      rcases List.mem_cons.1 hx with rfl | hx
      · exact absurd ha hs
      · exact ih hx hs
    · simp only [uniqueAux, if_neg ha, List.mem_cons]
      rcases List.mem_cons.1 hx with rfl | hx
      · exact Or.inl rfl
      · by_cases hxa : x = a
        · exact Or.inl hxa
        · exact Or.inr (ih hx (by simp [hs, hxa]))

theorem mem_uniqueList_iff [DecidableEq α] {l : List α} {x : α} :
    x ∈ uniqueList l ↔ x ∈ l :=
  ⟨mem_of_mem_uniqueAux, fun h => mem_uniqueAux_of_mem h (List.not_mem_nil x)⟩

theorem nodup_uniqueAux [DecidableEq α] (seen l : List α) :
    (uniqueAux seen l).Nodup ∧ ∀ x ∈ uniqueAux seen l, x ∉ seen := by
  induction l generalizing seen with
  | nil => simp [uniqueAux]
  | cons a t ih =>
    by_cases ha : a ∈ seen
    · simpa only [uniqueAux, if_pos ha] using ih seen
    · simp only [uniqueAux, if_neg ha]
      obtain ⟨hnd, hni⟩ := ih (a :: seen)
      refine ⟨List.nodup_cons.2 ⟨fun hmem => ?_, hnd⟩, ?_⟩
      · exact hni a hmem (List.mem_cons_self _ _)
      · intro x hx
        rcases List.mem_cons.1 hx with rfl | hx
        · exact ha
        · intro hxs
          exact hni x hx (List.mem_cons_of_mem _ hxs)

theorem nodup_uniqueList [DecidableEq α] (l : List α) : (uniqueList l).Nodup :=
  (nodup_uniqueAux [] l).1

theorem uniqueList_cons [DecidableEq α] (x : α) (l : List α) :
    uniqueList (x :: l) = x :: uniqueAux [x] l := by
  simp [uniqueList, uniqueAux]

theorem uniqueAux_eq_nil [DecidableEq α] {seen l : List α}
    (h : ∀ x ∈ l, x ∈ seen) : uniqueAux seen l = [] := by
  induction l with
  | nil => rfl
  | cons a t ih =>
    have ha : a ∈ seen := h a (List.mem_cons_self _ _)
    simp only [uniqueAux, if_pos ha]
    exact ih fun x hx => h x (List.mem_cons_of_mem _ hx)

theorem uniqueList_of_all_eq [DecidableEq α] {l : List α} {a : α}
    (h : ∀ y ∈ l, y = a) (hne : l ≠ []) : uniqueList l = [a] := by
  obtain ⟨b, t, rfl⟩ := List.exists_cons_of_ne_nil hne
  have hb : b = a := h b (List.mem_cons_self _ _)
  subst hb
  rw [uniqueList_cons, uniqueAux_eq_nil]
  intro x hx
  have := h x (List.mem_cons_of_mem _ hx)
  simp [this]

theorem dedupAdjacentGo_sublist [DecidableEq α] (prev : α) (l : List α) :
    List.Sublist (dedupAdjacentGo prev l) l := by
  induction l generalizing prev with
  | nil => exact List.Sublist.refl _
  | cons b rest ih =>
    by_cases hb : prev = b
    · simp only [dedupAdjacentGo, if_pos hb]
      exact (ih prev).trans (List.sublist_cons_self _ _)
    · simp only [dedupAdjacentGo, if_neg hb]
      exact (ih b).cons₂ b

theorem dedupAdjacent_sublist [DecidableEq α] (l : List α) :
    List.Sublist (dedupAdjacent l) l := by
  cases l with
  | nil => exact List.Sublist.refl _
  | cons a rest => exact (dedupAdjacentGo_sublist a rest).cons₂ a

theorem mem_of_mem_dedupAdjacent [DecidableEq α] {l : List α} {x : α}
    (h : x ∈ dedupAdjacent l) : x ∈ l :=
  (dedupAdjacent_sublist l).mem h

theorem mem_dedupAdjacentGo_of_mem [DecidableEq α] {l : List α} {x : α} (prev : α)
    (h : x ∈ l) : x = prev ∨ x ∈ dedupAdjacentGo prev l := by
  induction l generalizing prev with
  | nil => cases h
  | cons b rest ih =>
    by_cases hb : prev = b
    · simp only [dedupAdjacentGo, if_pos hb]
      rcases List.mem_cons.1 h with rfl | h
      · exact Or.inl hb.symm
      · exact ih prev h
    · simp only [dedupAdjacentGo, if_neg hb, List.mem_cons]
      rcases List.mem_cons.1 h with rfl | h
      · exact Or.inr (Or.inl rfl)
      · rcases ih b h with rfl | h
        · exact Or.inr (Or.inl rfl)
        · exact Or.inr (Or.inr h)

theorem mem_dedupAdjacent_of_mem [DecidableEq α] {l : List α} {x : α}
    (h : x ∈ l) : x ∈ dedupAdjacent l := by
  cases l with
  | nil => cases h
  | cons a rest =>
    simp only [dedupAdjacent, List.mem_cons]
    rcases List.mem_cons.1 h with rfl | h
    · exact Or.inl rfl
    · rcases mem_dedupAdjacentGo_of_mem a h with rfl | h
      · exact Or.inl rfl
      · exact Or.inr h

theorem dedupAdjacentGo_of_nodup [DecidableEq α] {l : List α} {prev : α}
    (hp : prev ∉ l) (hl : l.Nodup) : dedupAdjacentGo prev l = l := by
  induction l generalizing prev with
  | nil => rfl
  | cons b rest ih =>
    have hpb : prev ≠ b := fun h => hp (h ▸ List.mem_cons_self _ _)
    simp only [dedupAdjacentGo, if_neg hpb]
    obtain ⟨hb, hrest⟩ := List.nodup_cons.1 hl
    rw [ih hb hrest]

theorem dedupAdjacent_of_nodup [DecidableEq α] {l : List α} (hl : l.Nodup) :
    dedupAdjacent l = l := by
  cases l with
  | nil => rfl
  | cons a rest =>
    obtain ⟨ha, hrest⟩ := List.nodup_cons.1 hl
    simp only [dedupAdjacent]
    rw [dedupAdjacentGo_of_nodup ha hrest]

theorem dedupAdjacentGo_nodup_of_sorted [DecidableEq α] [LinearOrder α] {l : List α} {prev : α}
    (hs : List.Sorted (· ≥ ·) (prev :: l)) :
    (dedupAdjacentGo prev l).Nodup ∧ ∀ x ∈ dedupAdjacentGo prev l, x < prev := by
  induction l generalizing prev with
  | nil => simp [dedupAdjacentGo]
  | cons b rest ih =>
    have hs' : List.Sorted (· ≥ ·) (prev :: rest) :=
      hs.sublist ((List.sublist_cons_self b rest).cons₂ prev)
    have hsb : List.Sorted (· ≥ ·) (b :: rest) := hs.of_cons
    have hpb : prev ≥ b := List.rel_of_sorted_cons hs b (List.mem_cons_self _ _)
    by_cases hb : prev = b
    · simp only [dedupAdjacentGo, if_pos hb]
      exact ih hs'
    · simp only [dedupAdjacentGo, if_neg hb]
      have hlt : b < prev := lt_of_le_of_ne hpb (fun h => hb h.symm)
      obtain ⟨hnd, hbound⟩ := ih hsb
      refine ⟨List.nodup_cons.2 ⟨fun hmem => absurd (hbound b hmem) (lt_irrefl b), hnd⟩, ?_⟩
      intro x hx
      rcases List.mem_cons.1 hx with rfl | hx
      · exact hlt
      · exact lt_trans (hbound x hx) hlt

theorem dedupAdjacent_nodup_of_sorted [DecidableEq α] [LinearOrder α] {l : List α}
    (hs : List.Sorted (· ≥ ·) l) : (dedupAdjacent l).Nodup := by
  cases l with
  | nil => simp [dedupAdjacent]
  | cons a rest =>
    obtain ⟨hnd, hbound⟩ := dedupAdjacentGo_nodup_of_sorted hs
    exact List.nodup_cons.2
      ⟨fun hmem => absurd (hbound a hmem) (lt_irrefl a), hnd⟩

theorem sortDesc_perm [LinearOrder α] (l : List α) : List.Perm (sortDesc l) l :=
  List.perm_insertionSort _ l

theorem sortDesc_sorted [LinearOrder α] (l : List α) :
    List.Sorted (· ≥ ·) (sortDesc l) := by
  haveI : IsTotal α (· ≥ ·) := ⟨fun a b => le_total b a⟩
  haveI : IsTrans α (· ≥ ·) := ⟨fun _ _ _ h1 h2 => le_trans h2 h1⟩
  exact List.sorted_insertionSort _ l

theorem mem_sortDesc_iff [LinearOrder α] {l : List α} {x : α} :
    x ∈ sortDesc l ↔ x ∈ l :=
  (sortDesc_perm l).mem_iff

theorem dedupAdjacent_sorted [DecidableEq α] [LinearOrder α] {l : List α}
    (hs : List.Sorted (· ≥ ·) l) : List.Sorted (· ≥ ·) (dedupAdjacent l) :=
  hs.sublist (dedupAdjacent_sublist l)

theorem mem_cartProd [DecidableEq α] {L : List (List α)} {d : List α} :
    d ∈ cartProd L ↔ List.Forall₂ (fun x l => x ∈ l) d L := by
  induction L generalizing d with
  | nil =>
    simp only [cartProd, List.mem_singleton]
    constructor
    · rintro rfl; exact List.Forall₂.nil
    · intro h; cases h; rfl
  | cons l rest ih =>
    simp only [cartProd, List.mem_flatMap, List.mem_map]
    constructor
    · rintro ⟨x, hx, p, hp, rfl⟩
      exact List.Forall₂.cons hx (ih.1 hp)
    · intro h
      cases h with
      | cons hx hp => exact ⟨_, hx, _, ih.2 hp, rfl⟩

theorem cartProd_map_singleton (L : List (List α)) :
    cartProd (L.map fun p => [p]) = [L] := by
  induction L with
  | nil => rfl
  | cons l rest ih => simp [cartProd, ih]

theorem mem_dropThroughMatch {p : α → Bool} {l : List α} {x : α}
    (h : x ∈ dropThroughMatch p l) : x ∈ l := by
  induction l with
  | nil => cases h
  | cons a rest ih =>
    cases ha : p a with
    | true =>
      simp only [dropThroughMatch, ha, if_true] at h
      exact List.mem_cons_of_mem _ h
    | false =>
      simp only [dropThroughMatch, ha, Bool.false_eq_true, if_false] at h
      exact List.mem_cons_of_mem _ (ih h)

theorem getD_add_sum_eraseIdx (l : List Nat) (i : Nat) (h : i < l.length) :
    l.getD i 0 + (l.eraseIdx i).sum = l.sum := by
  induction l generalizing i with
  | nil => cases h
  | cons x rest ih =>
    cases i with
    | zero => simp [List.eraseIdx]
    | succ j =>
      have hj : j < rest.length := by simpa using h
      simp only [List.getD_cons_succ, List.eraseIdx_cons_succ, List.sum_cons]
      rw [← ih j hj]
      omega

theorem length_eraseIdx_of_lt {l : List α} {i : Nat} (h : i < l.length) :
    (l.eraseIdx i).length = l.length - 1 := by
  rw [List.length_eraseIdx]
  simp [h]

theorem sum_of_mem_itPermsAux {n : Nat} {l q : List Nat}
    (hq : q ∈ itPermsAux n l) (hn : l.length = n) : q.sum = l.sum := by
  induction n generalizing l q with
  | zero =>
    simp only [itPermsAux, List.mem_singleton] at hq
    subst hq
    have : l = [] := List.eq_nil_of_length_eq_zero hn
    simp [this]
  | succ m ih =>
    simp only [itPermsAux, List.mem_flatMap, List.mem_map, List.mem_range] at hq
    obtain ⟨i, hi, p, hp, rfl⟩ := hq
    have hlen : (l.eraseIdx i).length = m := by
      rw [length_eraseIdx_of_lt hi, hn]
      omega
    rw [List.sum_cons, ih hp hlen, getD_add_sum_eraseIdx l i hi]

theorem itPermsAux_ne_nil {n : Nat} {l : List Nat} (hn : l.length = n) :
    itPermsAux n l ≠ [] := by
  induction n generalizing l with
  | zero => simp [itPermsAux]
  | succ m ih =>
    have h0 : 0 < l.length := by omega
    have hlen : (l.eraseIdx 0).length = m := by
      rw [length_eraseIdx_of_lt h0, hn]
      omega
    obtain ⟨p, hp⟩ := List.exists_mem_of_ne_nil _ (ih hlen)
    have hmem : l.getD 0 0 :: p ∈ itPermsAux (m + 1) l := by
      simp only [itPermsAux, List.mem_flatMap, List.mem_map, List.mem_range]
      exact ⟨0, h0, p, hp, rfl⟩
    exact List.ne_nil_of_mem hmem

theorem const_of_mem_itPermsAux {a : Nat} {n : Nat} {l q : List Nat}
    (hq : q ∈ itPermsAux n l) (hn : l.length = n) (hc : ∀ y ∈ l, y = a) :
    (∀ y ∈ q, y = a) ∧ q.length = n := by
  induction n generalizing l q with
  | zero =>
    simp only [itPermsAux, List.mem_singleton] at hq
    subst hq
    simp
  | succ m ih =>
    simp only [itPermsAux, List.mem_flatMap, List.mem_map, List.mem_range] at hq
    obtain ⟨i, hi, p, hp, rfl⟩ := hq
    have hlen : (l.eraseIdx i).length = m := by
      rw [length_eraseIdx_of_lt hi, hn]
      omega
    have hc' : ∀ y ∈ l.eraseIdx i, y = a := fun y hy =>
      hc y ((List.eraseIdx_sublist l i).mem hy)
    obtain ⟨hall, hplen⟩ := ih hp hlen hc'
    refine ⟨?_, by simp [hplen]⟩
    intro y hy
    rcases List.mem_cons.1 hy with rfl | hy
    · refine hc _ ?_
      rw [List.getD_eq_getElem l 0 hi]
      exact List.getElem_mem hi
    · exact hall y hy

theorem sum_of_mem_distinctPermutations {p q : List Nat}
    (h : q ∈ distinctPermutations p) : q.sum = p.sum :=
  sum_of_mem_itPermsAux (mem_uniqueList_iff.1 h) rfl

theorem distinctPermutations_of_const {p : List Nat} {a : Nat}
    (h : ∀ y ∈ p, y = a) : distinctPermutations p = [p] := by
  unfold distinctPermutations itPermutations
  refine uniqueList_of_all_eq ?_ (itPermsAux_ne_nil rfl)
  intro q hq
  obtain ⟨hall, hlen⟩ := const_of_mem_itPermsAux hq rfl h
  have hq' : q = List.replicate p.length a := List.eq_replicate_iff.2 ⟨hlen, hall⟩
  have hp' : p = List.replicate p.length a := List.eq_replicate_iff.2 ⟨rfl, h⟩
  rw [hq', ← hp']

/-! Invariants of `find_tuple_partitions`. -/

theorem mem_incrementFirst {g : List Nat} {v y : Nat}
    (h : y ∈ incrementFirst v g) : y ∈ g ∨ (y = v + 1 ∧ v ∈ g) := by
  induction g with
  | nil => cases h
  | cons x rest ih =>
    by_cases hx : x = v
    · simp only [incrementFirst, if_pos hx] at h
      rcases List.mem_cons.1 h with rfl | h
      · exact Or.inr ⟨by rw [hx], hx ▸ List.mem_cons_self _ _⟩
      · exact Or.inl (List.mem_cons_of_mem _ h)
    · simp only [incrementFirst, if_neg hx] at h
      rcases List.mem_cons.1 h with rfl | h
      · exact Or.inl (List.mem_cons_self _ _)
      · rcases ih h with h | ⟨rfl, hv⟩
        · exact Or.inl (List.mem_cons_of_mem _ h)
        · exact Or.inr ⟨rfl, List.mem_cons_of_mem _ hv⟩

theorem sum_incrementFirst {g : List Nat} {v : Nat} (hv : v ∈ g) :
    (incrementFirst v g).sum = g.sum + 1 := by
  induction g with
  | nil => cases hv
  | cons x rest ih =>
    by_cases hx : x = v
    · simp only [incrementFirst, if_pos hx, List.sum_cons]
      omega
    · have hv' : v ∈ rest := by
        rcases List.mem_cons.1 hv with rfl | hv'
        · exact absurd rfl hx
        · exact hv'
      simp only [incrementFirst, if_neg hx, List.sum_cons, ih hv']
      omega

theorem pos_incrementFirst {g : List Nat} {v : Nat} (hpos : ∀ x ∈ g, 1 ≤ x) :
    ∀ y ∈ incrementFirst v g, 1 ≤ y := by
  intro y hy
  rcases mem_incrementFirst hy with h | ⟨rfl, _⟩
  · exact hpos y h
  · omega

theorem sorted_incrementFirst {g : List Nat} {v : Nat}
    (hs : List.Sorted (· ≥ ·) g) :
    List.Sorted (· ≥ ·) (incrementFirst v g) := by
  induction g with
  | nil => exact hs
  | cons x rest ih =>
    obtain ⟨hbound, hrest⟩ := List.sorted_cons.1 hs
    by_cases hx : x = v
    · simp only [incrementFirst, if_pos hx]
      exact List.sorted_cons.2 ⟨fun b hb => le_trans (hbound b hb) (Nat.le_succ x), hrest⟩
    · simp only [incrementFirst, if_neg hx]
      refine List.sorted_cons.2 ⟨?_, ih hrest⟩
      intro b hb
      rcases mem_incrementFirst hb with h | ⟨rfl, hv⟩
      · exact hbound b h
      · have : v < x := lt_of_le_of_ne (hbound v hv) (fun h => hx h.symm)
        omega

theorem mem_partitionStep {g p : List Nat} (hp : p ∈ partitionStep g) :
    (∃ v ∈ g, p = incrementFirst v g) ∨ p = g ++ [1] := by
  simp only [partitionStep, List.mem_append, List.mem_map, List.mem_singleton] at hp
  rcases hp with ⟨v, hv, rfl⟩ | rfl
  · exact Or.inl ⟨v, mem_of_mem_uniqueAux hv, rfl⟩
  · exact Or.inr rfl

theorem find_tuple_partitions_inv :
    ∀ (n : Nat), ∀ p ∈ find_tuple_partitions n,
      p.sum = n ∧ (∀ x ∈ p, 1 ≤ x) ∧ List.Sorted (· ≥ ·) p
  | 0, p, hp => by simp [find_tuple_partitions] at hp
  | 1, p, hp => by
    have h1 : find_tuple_partitions 1 = [[1]] := by decide
    rw [h1, List.mem_singleton] at hp
    subst hp
    refine ⟨rfl, ?_, ?_⟩ <;> simp
  | n + 2, p, hp => by
    simp only [find_tuple_partitions] at hp
    have hp1 : p ∈ sortDesc ((find_tuple_partitions (n + 1)).flatMap partitionStep) :=
      mem_of_mem_dedupAdjacent hp
    have hp2 : p ∈ (find_tuple_partitions (n + 1)).flatMap partitionStep :=
      mem_sortDesc_iff.1 hp1
    obtain ⟨g, hg, hpg⟩ := List.mem_flatMap.1 hp2
    obtain ⟨hsum, hpos, hsorted⟩ := find_tuple_partitions_inv (n + 1) g hg
    rcases mem_partitionStep hpg with ⟨v, hv, rfl⟩ | rfl
    · refine ⟨?_, pos_incrementFirst hpos, sorted_incrementFirst hsorted⟩
      rw [sum_incrementFirst hv, hsum]
    · refine ⟨?_, ?_, ?_⟩
      · simp [hsum]
      · intro x hx
        rcases List.mem_append.1 hx with hx | hx
        · exact hpos x hx
        · rw [List.mem_singleton] at hx
          exact hx.ge
      · rw [List.Sorted, List.pairwise_append]
        refine ⟨hsorted, by simp, ?_⟩
        intro a ha b hb
        simp only [List.mem_singleton] at hb
        subst hb
        exact hpos a ha

theorem find_tuple_partitions_sorted (n : Nat) :
    List.Sorted (· ≥ ·) (find_tuple_partitions n) := by
  match n with
  | 0 => simp [find_tuple_partitions]
  | 1 =>
    have h1 : find_tuple_partitions 1 = [[1]] := by decide
    rw [h1]
    exact List.sorted_singleton _
  | n + 2 =>
    simp only [find_tuple_partitions]
    exact dedupAdjacent_sorted
      (sortDesc_sorted ((find_tuple_partitions (n + 1)).flatMap partitionStep))

theorem find_tuple_partitions_nodup (n : Nat) :
    (find_tuple_partitions n).Nodup := by
  match n with
  | 0 => simp [find_tuple_partitions]
  | 1 =>
    have h1 : find_tuple_partitions 1 = [[1]] := by decide
    rw [h1]
    exact List.nodup_singleton _
  | n + 2 =>
    simp only [find_tuple_partitions]
    exact dedupAdjacent_nodup_of_sorted
      (sortDesc_sorted ((find_tuple_partitions (n + 1)).flatMap partitionStep))

theorem single_mem_find_tuple_partitions :
    ∀ (n : Nat), 1 ≤ n → [n] ∈ find_tuple_partitions n
  | 0, h => absurd h (by omega)
  | 1, _ => by decide
  | n + 2, _ => by
    have ih : [n + 1] ∈ find_tuple_partitions (n + 1) :=
      single_mem_find_tuple_partitions (n + 1) (by omega)
    simp only [find_tuple_partitions]
    apply mem_dedupAdjacent_of_mem
    rw [mem_sortDesc_iff]
    apply List.mem_flatMap.2
    refine ⟨[n + 1], ih, ?_⟩
    have hstep : incrementFirst (n + 1) [n + 1] = [n + 2] := by
      simp [incrementFirst]
    have huniq : uniqueList [n + 1] = [n + 1] := by
      simp [uniqueList, uniqueAux]
    simp only [partitionStep, huniq, List.mem_append, List.mem_map,
      List.mem_singleton]
    exact Or.inl ⟨n + 1, rfl, hstep⟩

theorem le_single_of_partition {p : List Nat} {n : Nat} (hs : p.sum = n)
    (hpos : ∀ x ∈ p, 1 ≤ x) (hn : 1 ≤ n) : p ≤ [n] := by
  cases p with
  | nil =>
    rw [List.sum_nil] at hs
    exfalso
    omega
  | cons x rest =>
    rw [List.sum_cons] at hs
    by_cases hx : x = n
    · have hrest : rest.sum = 0 := by omega
      cases rest with
      | nil => simp [hx]
      | cons y t =>
        have hy : 1 ≤ y := hpos y (List.mem_cons_of_mem _ (List.mem_cons_self _ _))
        rw [List.sum_cons] at hrest
        omega
    · have hlt : x < n := by
        have : x ≤ n := by omega
        omega
      have hlex : List.Lex (· < ·) (x :: rest) [n] := List.Lex.rel hlt
      exact le_of_lt hlex

theorem find_tuple_partitions_head (n : Nat) (hn : 1 ≤ n) :
    (find_tuple_partitions n).head? = some [n] := by
  have hmem := single_mem_find_tuple_partitions n hn
  have hsorted := find_tuple_partitions_sorted n
  obtain ⟨h0, t, heq⟩ := List.exists_cons_of_ne_nil (List.ne_nil_of_mem hmem)
  rw [heq] at hmem hsorted ⊢
  have h0mem : h0 ∈ find_tuple_partitions n := by
    rw [heq]
    exact List.mem_cons_self _ _
  obtain ⟨hsum, hpos, _⟩ := find_tuple_partitions_inv n h0 h0mem
  have hle : h0 ≤ [n] := le_single_of_partition hsum hpos hn
  have hge : [n] ≤ h0 := by
    rcases List.mem_cons.1 hmem with h | h
    · exact h ▸ le_refl _
    · exact List.rel_of_sorted_cons hsorted _ h
  rw [le_antisymm hle hge]
  rfl

/-! Invariants of `compute_adjacent_assignments`. -/

theorem length_insertIntoCluster (p : List (List Nat)) (i e : Nat) :
    (insertIntoCluster p i e).length = p.length :=
  List.length_set ..

theorem flatten_insertIntoCluster {p : List (List Nat)} {i : Nat} (e : Nat)
    (hi : i < p.length) :
    List.Perm (insertIntoCluster p i e).flatten (p.flatten ++ [e]) := by
  induction p generalizing i with
  | nil => cases hi
  | cons c rest ih =>
    cases i with
    | zero =>
      simp only [insertIntoCluster, List.set_cons_zero, List.getD_cons_zero,
        List.flatten_cons]
      rw [List.append_assoc, List.append_assoc]
      exact List.Perm.append_left c List.perm_append_comm
    | succ j =>
      have hj : j < rest.length := by simpa using hi
      simp only [insertIntoCluster, List.set_cons_succ, List.getD_cons_succ,
        List.flatten_cons]
      rw [List.append_assoc]
      exact List.Perm.append_left c (ih hj)

theorem mem_extendAssignment {e : Nat} {p x : List (List Nat)}
    (hx : x ∈ extendAssignment e p) :
    (∃ i, i < p.length ∧ x = insertIntoCluster p i e) ∨ x = p ++ [[e]] := by
  simp only [extendAssignment, List.mem_append, List.mem_map, List.mem_range,
    List.mem_singleton] at hx
  rcases hx with ⟨i, hi, rfl⟩ | rfl
  · exact Or.inl ⟨i, hi, rfl⟩
  · exact Or.inr rfl

theorem compute_adjacent_assignments_inv :
    ∀ (k : Nat), ∀ a ∈ compute_adjacent_assignments k,
      List.Perm a.flatten (List.range k) ∧ (∀ c ∈ a, c ≠ []) ∧ a.length ≤ k
  | 0, a, ha => by simp [compute_adjacent_assignments] at ha
  | 1, a, ha => by
    simp only [compute_adjacent_assignments, List.mem_singleton] at ha
    subst ha
    refine ⟨?_, by simp, by simp⟩
    simp [List.range_succ]
  | k + 2, a, ha => by
    simp only [compute_adjacent_assignments] at ha
    have ha1 := mem_of_mem_dedupAdjacent ha
    have ha2 :
        a ∈ (compute_adjacent_assignments (k + 1)).flatMap
          (extendAssignment (k + 1)) :=
      (List.perm_insertionSort assignmentRel _).mem_iff.1 ha1
    obtain ⟨p, hp, hap⟩ := List.mem_flatMap.1 ha2
    obtain ⟨hperm, hne, hlen⟩ := compute_adjacent_assignments_inv (k + 1) p hp
    rcases mem_extendAssignment hap with ⟨i, hi, rfl⟩ | rfl
    · refine ⟨?_, ?_, ?_⟩
      · rw [show List.range (k + 2) = List.range (k + 1) ++ [k + 1] from
          List.range_succ (k + 1)]
        exact (flatten_insertIntoCluster (k + 1) hi).trans
          (hperm.append_right [k + 1])
      · intro c hc
        rcases List.mem_or_eq_of_mem_set hc with hc | rfl
        · exact hne c hc
        · simp
      · rw [length_insertIntoCluster]
        omega
    · refine ⟨?_, ?_, ?_⟩
      · rw [List.flatten_append,
          show List.range (k + 2) = List.range (k + 1) ++ [k + 1] from
            List.range_succ (k + 1),
          show ([[k + 1]] : List (List Nat)).flatten = [k + 1] by simp]
        exact hperm.append_right [k + 1]
      · intro c hc
        rcases List.mem_append.1 hc with hc | hc
        · exact hne c hc
        · rw [List.mem_singleton] at hc
          subst hc
          simp
      · rw [List.length_append]
        simpa using hlen

/-! Duplicate-freeness of the generated assignment lists. -/

theorem getD_set_self {l : List α} {i : Nat} {a d : α} (h : i < l.length) :
    (l.set i a).getD i d = a := by
  rw [List.getD_eq_getElem _ _ (by simpa using h)]
  exact List.getElem_set_self _

theorem getD_set_ne {l : List α} {i j : Nat} {a d : α} (hne : i ≠ j)
    (h : j < l.length) : (l.set i a).getD j d = l.getD j d := by
  rw [List.getD_eq_getElem _ _ (by simpa using h), List.getD_eq_getElem _ _ h]
  exact List.getElem_set_ne hne _

theorem getD_append_singleton {l : List α} {a d : α} :
    (l ++ [a]).getD l.length d = a := by
  induction l with
  | nil => rfl
  | cons x rest ih =>
    rw [List.cons_append, List.length_cons, List.getD_cons_succ]
    exact ih

theorem getD_append_of_lt {l l' : List α} {m : Nat} {d : α} (h : m < l.length) :
    (l ++ l').getD m d = l.getD m d := by
  induction l generalizing m with
  | nil => cases h
  | cons x rest ih =>
    cases m with
    | zero => rfl
    | succ j =>
      have hj : j < rest.length := by simpa using h
      simpa using ih hj

theorem getD_mem_of_lt {l : List α} {m : Nat} {d : α} (h : m < l.length) :
    l.getD m d ∈ l := by
  rw [List.getD_eq_getElem _ _ h]
  exact List.getElem_mem h

theorem eq_of_getD_eq {l1 l2 : List α} (d : α) (hlen : l1.length = l2.length)
    (h : ∀ m, m < l1.length → l1.getD m d = l2.getD m d) : l1 = l2 := by
  apply List.ext_getElem hlen
  intro i h1 h2
  have hi := h i h1
  rwa [List.getD_eq_getElem _ _ h1, List.getD_eq_getElem _ _ h2] at hi

theorem nodup_extendAssignment (e : Nat) (p : List (List Nat)) :
    (extendAssignment e p).Nodup := by
  unfold extendAssignment
  rw [List.nodup_append]
  refine ⟨?_, List.nodup_singleton _, ?_⟩
  · refine List.Nodup.map_on ?_ (List.nodup_range _)
    intro i hi j hj hij
    rw [List.mem_range] at hi hj
    by_contra hne
    have h1 : (insertIntoCluster p i e).getD i [] = p.getD i [] ++ [e] :=
      getD_set_self hi
    have h2 : (insertIntoCluster p j e).getD i [] = p.getD i [] :=
      getD_set_ne (fun h => hne h.symm) hi
    rw [hij, h2] at h1
    have := congrArg List.length h1
    simp at this
  · intro x hx hx'
    rw [List.mem_singleton] at hx'
    obtain ⟨i, _, rfl⟩ := List.mem_map.1 hx
    have h1 := length_insertIntoCluster p i e
    rw [hx'] at h1
    simp at h1

theorem insert_ne_append {e : Nat} {p1 p2 : List (List Nat)}
    (hne1 : ∀ c ∈ p1, c ≠ []) (hlab1 : ∀ c ∈ p1, e ∉ c) {i : Nat}
    (hi : i < p1.length) : insertIntoCluster p1 i e ≠ p2 ++ [[e]] := by
  intro heq
  have hlen : p1.length = p2.length + 1 := by
    have := congrArg List.length heq
    rw [length_insertIntoCluster] at this
    simpa using this
  have hL : p2.length < p1.length := by omega
  have hright : (p2 ++ [[e]]).getD p2.length [] = [e] := getD_append_singleton
  by_cases hiL : i = p2.length
  · have hleft : (insertIntoCluster p1 i e).getD p2.length [] = p1.getD i [] ++ [e] := by
      rw [← hiL]
      exact getD_set_self hi
    rw [heq] at hleft
    rw [hright] at hleft
    have : p1.getD i [] = [] := by
      have h0 : p1.getD i [] ++ [e] = [] ++ [e] := by simpa using hleft
      exact List.append_cancel_right h0
    exact hne1 _ (getD_mem_of_lt hi) this
  · have hleft : (insertIntoCluster p1 i e).getD p2.length [] = p1.getD p2.length [] :=
      getD_set_ne hiL hL
    rw [heq] at hleft
    rw [hright] at hleft
    have hmem : e ∈ p1.getD p2.length [] := by
      rw [← hleft]
      simp
    exact hlab1 _ (getD_mem_of_lt hL) hmem

theorem extendAssignment_inj {e : Nat} {p1 p2 : List (List Nat)}
    (hne1 : ∀ c ∈ p1, c ≠ []) (hlab1 : ∀ c ∈ p1, e ∉ c)
    (hne2 : ∀ c ∈ p2, c ≠ []) (hlab2 : ∀ c ∈ p2, e ∉ c)
    {x : List (List Nat)} (h1 : x ∈ extendAssignment e p1)
    (h2 : x ∈ extendAssignment e p2) : p1 = p2 := by
  rcases mem_extendAssignment h1 with ⟨i, hi, rfl⟩ | rfl
  · rcases mem_extendAssignment h2 with ⟨j, hj, heq⟩ | heq
    · have hlen : p1.length = p2.length := by
        have := congrArg List.length heq
        rwa [length_insertIntoCluster, length_insertIntoCluster] at this
      by_cases hij : i = j
      · subst hij
        refine eq_of_getD_eq [] hlen ?_
        intro m hm
        by_cases hmi : m = i
        · subst hmi
          have ha : (insertIntoCluster p1 m e).getD m [] = p1.getD m [] ++ [e] :=
            getD_set_self hm
          have hb : (insertIntoCluster p2 m e).getD m [] = p2.getD m [] ++ [e] :=
            getD_set_self (hlen ▸ hm)
          rw [heq, hb] at ha
          exact (List.append_cancel_right ha.symm)
        · have ha : (insertIntoCluster p1 i e).getD m [] = p1.getD m [] :=
            getD_set_ne (fun h => hmi h.symm) hm
          have hb : (insertIntoCluster p2 i e).getD m [] = p2.getD m [] :=
            getD_set_ne (fun h => hmi h.symm) (hlen ▸ hm)
          rw [heq, hb] at ha
          exact ha.symm
      · exfalso
        have hjlt : j < p1.length := hlen ▸ hj
        have ha : (insertIntoCluster p1 i e).getD j [] = p1.getD j [] :=
          getD_set_ne hij hjlt
        have hb : (insertIntoCluster p2 j e).getD j [] = p2.getD j [] ++ [e] :=
          getD_set_self hj
        rw [heq, hb] at ha
        have hmem : e ∈ p1.getD j [] := by
          rw [← ha]
          simp
        exact hlab1 _ (getD_mem_of_lt hjlt) hmem
    · exact absurd heq (insert_ne_append hne1 hlab1 hi)
  · rcases mem_extendAssignment h2 with ⟨j, hj, heq⟩ | heq
    · exact absurd heq.symm (insert_ne_append hne2 hlab2 hj)
    · exact List.append_cancel_right heq

theorem label_not_mem_cluster {k : Nat} {p : List (List Nat)}
    (hp : p ∈ compute_adjacent_assignments k) {c : List Nat} (hc : c ∈ p) : k ∉ c := by
  intro hk
  obtain ⟨hperm, -, -⟩ := compute_adjacent_assignments_inv k p hp
  have : k ∈ p.flatten := List.mem_flatten.2 ⟨c, hc, hk⟩
  have : k ∈ List.range k := hperm.mem_iff.1 this
  rw [List.mem_range] at this
  omega

theorem cluster_ne_nil {k : Nat} {p : List (List Nat)}
    (hp : p ∈ compute_adjacent_assignments k) {c : List Nat} (hc : c ∈ p) : c ≠ [] :=
  (compute_adjacent_assignments_inv k p hp).2.1 c hc

theorem nodup_assignment_flatMap (k : Nat) :
    (compute_adjacent_assignments k).Nodup →
      ((compute_adjacent_assignments k).flatMap (extendAssignment k)).Nodup := by
  intro hnd
  rw [List.nodup_flatMap]
  refine ⟨fun p _ => nodup_extendAssignment k p, ?_⟩
  refine hnd.imp_of_mem ?_
  intro p q hp hq hpq x hxp hxq
  exact hpq (extendAssignment_inj (fun c hc => cluster_ne_nil hp hc)
    (fun c hc => label_not_mem_cluster hp hc)
    (fun c hc => cluster_ne_nil hq hc)
    (fun c hc => label_not_mem_cluster hq hc) hxp hxq)

theorem compute_adjacent_assignments_nodup :
    ∀ (k : Nat), (compute_adjacent_assignments k).Nodup
  | 0 => by simp [compute_adjacent_assignments]
  | 1 => by simp [compute_adjacent_assignments]
  | k + 2 => by
    have hgen := nodup_assignment_flatMap (k + 1)
      (compute_adjacent_assignments_nodup (k + 1))
    have hsortnd :
        (((compute_adjacent_assignments (k + 1)).flatMap
          (extendAssignment (k + 1))).insertionSort assignmentRel).Nodup :=
      ((List.perm_insertionSort assignmentRel _).nodup_iff).2 hgen
    simp only [compute_adjacent_assignments]
    rw [dedupAdjacent_of_nodup hsortnd]
    exact hsortnd

theorem compute_adjacent_assignments_succ_eq (k : Nat) :
    compute_adjacent_assignments (k + 2) =
      ((compute_adjacent_assignments (k + 1)).flatMap
        (extendAssignment (k + 1))).insertionSort assignmentRel := by
  have hgen := nodup_assignment_flatMap (k + 1)
    (compute_adjacent_assignments_nodup (k + 1))
  have hsortnd :
      (((compute_adjacent_assignments (k + 1)).flatMap
        (extendAssignment (k + 1))).insertionSort assignmentRel).Nodup :=
    ((List.perm_insertionSort assignmentRel _).nodup_iff).2 hgen
  simp only [compute_adjacent_assignments]
  rw [dedupAdjacent_of_nodup hsortnd]

/-! Counting assignments: the Stirling recurrence and the Bell numbers. -/

theorem countP_extendAssignment (e : Nat) (p : List (List Nat)) (c : Nat) :
    (extendAssignment e p).countP (fun a => a.length == c) =
      (if p.length = c then p.length else 0) +
        (if p.length + 1 = c then 1 else 0) := by
  unfold extendAssignment
  rw [List.countP_append, List.countP_map]
  have hconst :
      (List.range p.length).countP ((fun a => a.length == c) ∘
        fun i => insertIntoCluster p i e) =
        (List.range p.length).countP (fun _ => p.length == c) := by
    apply List.countP_congr
    intro i _
    simp [Function.comp, length_insertIntoCluster]
  rw [hconst]
  have hsingle :
      List.countP (fun a => a.length == c) [p ++ [[e]]] =
        if p.length + 1 = c then 1 else 0 := by
    simp only [List.countP_cons, List.countP_nil, List.length_append,
      List.length_singleton]
    by_cases h : p.length + 1 = c
    · simp [h]
    · simp [h, beq_eq_false_iff_ne.2 h]
  rw [hsingle]
  by_cases h : p.length = c
  · simp [h, List.countP_true]
  · simp [h, beq_eq_false_iff_ne.2 h]

theorem sum_map_add_distrib {l : List α} (f g : α → Nat) :
    (l.map fun x => f x + g x).sum = (l.map f).sum + (l.map g).sum := by
  induction l with
  | nil => simp
  | cons a t ih =>
    simp only [List.map_cons, List.sum_cons, ih]
    omega

theorem sum_map_ite_len (c : Nat) (l : List (List (List Nat))) :
    (l.map fun p => if p.length = c then p.length else 0).sum =
      c * l.countP (fun p => p.length == c) := by
  induction l with
  | nil => simp
  | cons a t ih =>
    rw [List.map_cons, List.sum_cons, List.countP_cons, ih]
    simp only [beq_iff_eq]
    by_cases h : a.length = c
    · simp only [if_pos h]
      rw [h]
      ring
    · simp only [if_neg h]
      rw [Nat.add_zero, Nat.zero_add]

theorem sum_map_ite_one (c : Nat) (l : List (List (List Nat))) :
    (l.map fun p => if p.length + 1 = c then 1 else 0).sum =
      l.countP (fun p => p.length + 1 == c) := by
  induction l with
  | nil => simp
  | cons a t ih =>
    rw [List.map_cons, List.sum_cons, List.countP_cons, ih]
    simp only [beq_iff_eq]
    by_cases h : a.length + 1 = c
    · simp only [if_pos h]
      omega
    · simp only [if_neg h]
      omega

theorem countP_len_succ_shift (c : Nat) (l : List (List (List Nat))) :
    l.countP (fun p => p.length + 1 == c + 1) =
      l.countP (fun p => p.length == c) := by
  apply List.countP_congr
  intro x _
  simp only [beq_iff_eq]
  omega

theorem compute_adjacent_assignments_countP :
    ∀ (k : Nat), 1 ≤ k → ∀ (c : Nat),
      (compute_adjacent_assignments k).countP (fun a => a.length == c) =
        stirling k c
  | 0, h, _ => absurd h (by omega)
  | 1, _, c => by
    match c with
    | 0 => simp [compute_adjacent_assignments, List.countP_cons, stirling]
    | 1 => simp [compute_adjacent_assignments, List.countP_cons, stirling]
    | c + 2 =>
      simp [compute_adjacent_assignments, List.countP_cons, stirling,
        beq_eq_false_iff_ne.2 (show (1 : Nat) ≠ c + 2 by omega)]
  | k + 2, _, c => by
    rw [compute_adjacent_assignments_succ_eq,
      (List.perm_insertionSort assignmentRel _).countP_eq,
      List.countP_flatMap]
    have hmap :
        ((compute_adjacent_assignments (k + 1)).map
          (List.countP (fun a => a.length == c) ∘ extendAssignment (k + 1))) =
        ((compute_adjacent_assignments (k + 1)).map fun p =>
          (if p.length = c then p.length else 0) +
            (if p.length + 1 = c then 1 else 0)) := by
      apply List.map_congr_left
      intro p _
      simp only [Function.comp]
      exact countP_extendAssignment (k + 1) p c
    rw [hmap, sum_map_add_distrib, sum_map_ite_len, sum_map_ite_one]
    match c with
    | 0 =>
      have h1 : (compute_adjacent_assignments (k + 1)).countP
          (fun p => p.length == 0) = stirling (k + 1) 0 :=
        compute_adjacent_assignments_countP (k + 1) (by omega) 0
      have h2 : (compute_adjacent_assignments (k + 1)).countP
          (fun p => p.length + 1 == 0) = 0 := by
        apply List.countP_eq_zero.2
        intro p _
        simp
      rw [h1, h2]
      simp [stirling]
    | c + 1 =>
      rw [countP_len_succ_shift,
        compute_adjacent_assignments_countP (k + 1) (by omega) (c + 1),
        compute_adjacent_assignments_countP (k + 1) (by omega) c]
      rfl

theorem length_eq_sum_countP {l : List (List (List Nat))} {K : Nat}
    (hK : ∀ a ∈ l, a.length ≤ K) :
    l.length = ∑ c ∈ Finset.range (K + 1), l.countP (fun a => a.length == c) := by
  induction l with
  | nil => simp
  | cons a t ih =>
    have ht := ih (fun x hx => hK x (List.mem_cons_of_mem _ hx))
    simp only [List.countP_cons, List.length_cons]
    rw [Finset.sum_add_distrib, ← ht]
    have ha : a.length ∈ Finset.range (K + 1) :=
      Finset.mem_range.2 (by have := hK a (List.mem_cons_self _ _); omega)
    have hsum :
        (∑ c ∈ Finset.range (K + 1), if (a.length == c) then 1 else 0) = 1 := by
      simp only [beq_iff_eq]
      rw [Finset.sum_ite_eq]
      simp [ha]
    omega

theorem compute_adjacent_assignments_length (k : Nat) (hk : 1 ≤ k) :
    (compute_adjacent_assignments k).length = bell k := by
  have hbound : ∀ a ∈ compute_adjacent_assignments k, a.length ≤ k :=
    fun a ha => (compute_adjacent_assignments_inv k a ha).2.2
  rw [length_eq_sum_countP hbound, bell]
  exact Finset.sum_congr rfl fun c _ =>
    compute_adjacent_assignments_countP k hk c

/-! Sums through `group_into_sequential_tuples`, and the spec-reference equivalence. -/

theorem map_getD_range (l : List Nat) :
    (List.range l.length).map (fun i => l.getD i 0) = l := by
  induction l with
  | nil => rfl
  | cons x xs ih =>
    rw [List.length_cons, List.range_succ_eq_map, List.map_cons, List.map_map]
    have h : (List.range xs.length).map ((fun i => (x :: xs).getD i 0) ∘ Nat.succ) =
        (List.range xs.length).map (fun i => xs.getD i 0) :=
      List.map_congr_left (fun i _ => rfl)
    rw [h, ih]
    rfl

theorem decompTotal_vassign {values : List Nat} {assignment : List (List Nat)}
    (hperm : List.Perm assignment.flatten (List.range values.length)) :
    decompTotal (assignment.map fun sub => sub.map fun idx => values.getD idx 0) =
      values.sum := by
  unfold decompTotal
  rw [List.map_map]
  have h1 :
      (assignment.map ((fun r => r.sum) ∘ fun sub =>
        sub.map fun idx => values.getD idx 0)) =
        (assignment.map (List.map fun idx => values.getD idx 0)).map List.sum := by
    rw [List.map_map]
  rw [h1, ← List.sum_flatten, ← List.map_flatten]
  have h2 : List.Perm (assignment.flatten.map fun idx => values.getD idx 0)
      ((List.range values.length).map fun idx => values.getD idx 0) :=
    hperm.map _
  rw [h2.sum_eq, map_getD_range]

theorem decompTotal_of_forall₂ {d L : List (List Nat)}
    (h : List.Forall₂ (fun q p => q ∈ distinctPermutations p) d L) :
    decompTotal d = decompTotal L := by
  induction h with
  | nil => rfl
  | cons hqp _ ih =>
    unfold decompTotal at ih ⊢
    simp only [List.map_cons, List.sum_cons, ih,
      sum_of_mem_distinctPermutations hqp]

theorem decompTotal_of_mem_group_into_sequential_tuples {values : List Nat}
    {d : PlayRequirements} (hd : d ∈ group_into_sequential_tuples values) :
    decompTotal d = values.sum := by
  unfold group_into_sequential_tuples at hd
  have hd1 := mem_of_mem_uniqueAux hd
  obtain ⟨assignment, hassign, hbody⟩ := List.mem_flatMap.1 hd1
  obtain ⟨hperm, -, -⟩ :=
    compute_adjacent_assignments_inv values.length assignment hassign
  simp only at hbody
  by_cases hall :
      (assignment.map fun sub => sub.map fun idx => values.getD idx 0).all
        (fun p => p.all fun pp => pp == p.headD 0)
  · rw [if_pos hall] at hbody
    rw [List.mem_singleton] at hbody
    subst hbody
    exact decompTotal_vassign hperm
  · rw [if_neg hall] at hbody
    have hf2 := mem_cartProd.1 hbody
    rw [List.forall₂_map_right_iff] at hf2
    rw [decompTotal_of_forall₂ hf2]
    exact decompTotal_vassign hperm

theorem cartProd_spec_body (L : List (List Nat)) :
    cartProd (L.map fun p =>
        if p.all (fun pp => pp == p.headD 0) then [p] else distinctPermutations p) =
      if L.all (fun p => p.all fun pp => pp == p.headD 0) then [L]
      else cartProd (L.map distinctPermutations) := by
  have hconst : ∀ p : List Nat, p.all (fun pp => pp == p.headD 0) = true →
      distinctPermutations p = [p] := by
    intro p hp
    exact distinctPermutations_of_const
      (fun y hy => beq_iff_eq.1 (List.all_eq_true.1 hp y hy))
  by_cases hall : L.all (fun p => p.all fun pp => pp == p.headD 0) = true
  · rw [if_pos hall]
    have hmap : (L.map fun p =>
        if p.all (fun pp => pp == p.headD 0) then [p] else distinctPermutations p) =
        L.map fun p => [p] := by
      apply List.map_congr_left
      intro p hp
      rw [if_pos (List.all_eq_true.1 hall p hp)]
    rw [hmap, cartProd_map_singleton]
  · rw [if_neg hall]
    congr 1
    apply List.map_congr_left
    intro p _
    by_cases hp : p.all (fun pp => pp == p.headD 0) = true
    · rw [if_pos hp, hconst p hp]
    · rw [if_neg hp]

theorem group_into_sequential_tuples_eq_spec_ordered (values : List Nat) :
    group_into_sequential_tuples values = sequentialRunsSpecOrdered values := by
  unfold group_into_sequential_tuples sequentialRunsSpecOrdered
    sequentialRunsSpecCandidates
  congr 1
  rw [List.flatMap_def, List.flatMap_def]
  congr 1
  apply List.map_congr_left
  intro assignment _
  exact (cartProd_spec_body _).symm

/-! Properties of `full_decomposition_ordering`. -/

theorem decompTotal_sortDesc (d : PlayRequirements) :
    decompTotal (sortDesc d) = decompTotal d := by
  unfold decompTotal
  exact ((sortDesc_perm d).map _).sum_eq

theorem decompTotal_append (a b : PlayRequirements) :
    decompTotal (a ++ b) = decompTotal a + decompTotal b := by
  unfold decompTotal
  rw [List.map_append, List.sum_append]

theorem decompTotal_singles (l : List Nat) :
    decompTotal (l.map fun v => [v]) = l.sum := by
  unfold decompTotal
  rw [List.map_map]
  have h : ((fun r : List Nat => r.sum) ∘ fun v : Nat => [v]) = id :=
    funext fun v => by simp
  rw [h, List.map_id]

theorem decompTotal_of_mem_full_decomposition_ordering {n : Nat}
    {d : PlayRequirements} (hd : d ∈ full_decomposition_ordering n) :
    decompTotal d = n := by
  unfold full_decomposition_ordering at hd
  have hd1 := mem_of_mem_uniqueAux hd
  obtain ⟨group, hg, hbody⟩ := List.mem_flatMap.1 hd1
  obtain ⟨hsum, hpos, hsorted⟩ := find_tuple_partitions_inv n group hg
  have hsplit : (group.takeWhile fun v => v ≠ 1).sum +
      (group.dropWhile fun v => v ≠ 1).sum = n := by
    rw [← List.sum_append, List.takeWhile_append_dropWhile, hsum]
  simp only at hbody
  by_cases hempty : (group.takeWhile fun v => v ≠ 1).isEmpty
  · rw [if_pos hempty] at hbody
    rw [List.mem_singleton] at hbody
    subst hbody
    rw [decompTotal_singles]
    rw [List.isEmpty_iff] at hempty
    rw [hempty, List.sum_nil] at hsplit
    simpa using hsplit
  · rw [if_neg hempty] at hbody
    obtain ⟨d0, hd0, rfl⟩ := List.mem_map.1 hbody
    rw [decompTotal_sortDesc, decompTotal_append, decompTotal_singles,
      decompTotal_of_mem_group_into_sequential_tuples hd0]
    exact hsplit

theorem singleton_le_singleton {a b : Nat} (h : a ≤ b) :
    ([a] : List Nat) ≤ [b] := by
  rcases lt_or_eq_of_le h with h | h
  · exact le_of_lt (List.Lex.rel h)
  · rw [h]

theorem sorted_of_mem_full_decomposition_ordering {n : Nat}
    {d : PlayRequirements} (hd : d ∈ full_decomposition_ordering n) :
    List.Sorted (· ≥ ·) d := by
  unfold full_decomposition_ordering at hd
  have hd1 := mem_of_mem_uniqueAux hd
  obtain ⟨group, hg, hbody⟩ := List.mem_flatMap.1 hd1
  obtain ⟨-, -, hsorted⟩ := find_tuple_partitions_inv n group hg
  simp only at hbody
  by_cases hempty : (group.takeWhile fun v => v ≠ 1).isEmpty
  · rw [if_pos hempty] at hbody
    rw [List.mem_singleton] at hbody
    subst hbody
    have hs : List.Sorted (· ≥ ·) (group.dropWhile fun v => v ≠ 1) :=
      hsorted.sublist (List.dropWhile_sublist _)
    rw [List.Sorted, List.pairwise_map]
    exact hs.imp fun h => singleton_le_singleton h
  · rw [if_neg hempty] at hbody
    obtain ⟨d0, hd0, rfl⟩ := List.mem_map.1 hbody
    exact sortDesc_sorted _

theorem full_decomposition_ordering_pairwise_not_perm (n : Nat) :
    (full_decomposition_ordering n).Pairwise fun d e => ¬ List.Perm d e := by
  haveI : IsAntisymm AdjacentTupleSizes (· ≥ ·) :=
    ⟨fun a b h1 h2 => le_antisymm h2 h1⟩
  have hnd : (full_decomposition_ordering n).Nodup := nodup_uniqueList _
  refine hnd.imp_of_mem ?_
  intro d e hd he hne hperm
  exact hne (List.eq_of_perm_of_sorted hperm
    (sorted_of_mem_full_decomposition_ordering hd)
    (sorted_of_mem_full_decomposition_ordering he))

theorem group_into_sequential_tuples_single (v : Nat) :
    group_into_sequential_tuples [v] = [[[v]]] := by
  unfold group_into_sequential_tuples
  have hcaa : compute_adjacent_assignments ([v] : List Nat).length = [[[0]]] := rfl
  rw [hcaa]
  have hbody :
      ([[[0]]] : List (List (List Nat))).flatMap (fun assignment =>
        let vassign : PlayRequirements :=
          assignment.map fun sub => sub.map fun idx => ([v] : List Nat).getD idx 0
        if vassign.all (fun p => p.all (fun pp => pp == p.headD 0)) then [vassign]
        else cartProd (vassign.map distinctPermutations)) = [[[v]]] := by
    simp [List.flatMap_cons]
  rw [hbody]
  rw [uniqueList_cons]
  rfl

theorem sortDesc_singleton [LinearOrder α] (a : α) : sortDesc [a] = [a] := rfl

theorem full_decomposition_ordering_head :
    ∀ (n : Nat), 1 ≤ n → (full_decomposition_ordering n).head? = some [[n]]
  | 0, h => absurd h (by omega)
  | 1, _ => by decide
  | m + 2, _ => by
    obtain ⟨t, ht⟩ : ∃ t, find_tuple_partitions (m + 2) = [m + 2] :: t := by
      have hh := find_tuple_partitions_head (m + 2) (by omega)
      cases hft : find_tuple_partitions (m + 2) with
      | nil => rw [hft] at hh; simp at hh
      | cons a t =>
        rw [hft] at hh
        simp only [List.head?_cons, Option.some_inj] at hh
        exact ⟨t, by rw [hh]⟩
    unfold full_decomposition_ordering
    rw [ht, List.flatMap_cons]
    have htake : ([m + 2] : List Nat).takeWhile (fun v => v ≠ 1) = [m + 2] := by
      rw [List.takeWhile_cons, if_pos]
      · rfl
      · simp only [ne_eq, decide_eq_true_eq]
        omega
    have hdrop : ([m + 2] : List Nat).dropWhile (fun v => v ≠ 1) = [] := by
      rw [List.dropWhile_cons, if_pos]
      · rfl
      · simp only [ne_eq, decide_eq_true_eq]
        omega
    simp only [htake, hdrop]
    rw [if_neg (by simp)]
    rw [group_into_sequential_tuples_single, List.map_cons]
    simp only [List.map_nil, List.append_nil, sortDesc_singleton, List.map_cons]
    rw [List.cons_append, uniqueList_cons]
    rfl

/-! Card-count preservation through the refinement loop. -/

theorem decompTotal_flatMap (l : List Nat) (g : Nat → PlayRequirements) :
    decompTotal (l.flatMap g) = (l.map fun i => decompTotal (g i)).sum := by
  induction l with
  | nil => rfl
  | cons a t ih =>
    rw [List.flatMap_cons, decompTotal_append, ih, List.map_cons, List.sum_cons]

theorem mergedDecomp_total {targets : List Nat} {current : List PlayRequirements}
    {h : List Nat}
    (hcur : ∀ i, i < targets.length →
      decompTotal (current.getD i []) = targets.getD i 0)
    (hperm : List.Perm h (List.range targets.length)) :
    decompTotal (mergedDecomp current h) = targets.sum := by
  unfold mergedDecomp
  rw [decompTotal_sortDesc, decompTotal_flatMap]
  rw [(hperm.map fun i => decompTotal (current.getD i [])).sum_eq]
  have h2 : ((List.range targets.length).map fun i =>
      decompTotal (current.getD i [])) =
      ((List.range targets.length).map fun i => targets.getD i 0) :=
    List.map_congr_left fun i hi => hcur i (List.mem_range.1 hi)
  rw [h2, map_getD_range]

theorem subseqLoop_total {targets : List Nat} (fuel : Nat) (canInc : List Bool)
    (queues : List (List PlayRequirements)) (current : List PlayRequirements)
    (h : List Nat) (acc : List PlayRequirements)
    (hql : queues.length = targets.length)
    (hcl : current.length = targets.length)
    (hque : ∀ i, i < targets.length → ∀ e ∈ queues.getD i [],
      decompTotal e = targets.getD i 0)
    (hcur : ∀ i, i < targets.length →
      decompTotal (current.getD i []) = targets.getD i 0)
    (hperm : List.Perm h (List.range targets.length))
    (hacc : ∀ d ∈ acc, decompTotal d = targets.sum) :
    ∀ d ∈ subseqLoop canInc fuel queues current h acc,
      decompTotal d = targets.sum := by
  induction fuel generalizing queues current h acc with
  | zero =>
    intro d hd
    exact hacc d (by simpa [subseqLoop] using hd)
  | succ fuel ih =>
    intro d hd
    rw [subseqLoop] at hd
    have hperm' : List.Perm (h.insertionSort (queueRel queues))
        (List.range targets.length) :=
      (List.perm_insertionSort _ _).trans hperm
    split at hd
    · exact hacc d hd
    · rename_i idx hh1
      have hidx : idx < targets.length := by
        have hmem : idx ∈ h.insertionSort (queueRel queues) :=
          List.mem_of_mem_head? hh1
        have := hperm'.mem_iff.1 hmem
        exact List.mem_range.1 this
      split at hd
      · exact hacc d hd
      · rename_i v hh2
        have hv : v ∈ queues.getD idx [] := List.mem_of_mem_head? hh2
        have hvt : decompTotal v = targets.getD idx 0 := hque idx hidx v hv
        have hcur' : ∀ i, i < targets.length →
            decompTotal ((current.set idx v).getD i []) = targets.getD i 0 := by
          intro i hi
          by_cases hii : idx = i
          · subst hii
            rw [getD_set_self (hcl ▸ hidx)]
            exact hvt
          · rw [getD_set_ne hii (hcl ▸ hi)]
            exact hcur i hi
        refine ih (queues.set idx (queues.getD idx []).tail) (current.set idx v)
          (h.insertionSort (queueRel queues)) _ ?_ ?_ ?_ hcur' hperm' ?_ d hd
        · rw [List.length_set]
          exact hql
        · rw [List.length_set]
          exact hcl
        · intro i hi e he
          by_cases hii : idx = i
          · subst hii
            rw [getD_set_self (hql ▸ hidx)] at he
            exact hque idx hi e (List.mem_of_mem_tail he)
          · rw [getD_set_ne hii (hql ▸ hi)] at he
            exact hque i hi e he
        · intro d' hd'
          by_cases hadm : admissible canInc (current.set idx v)
              (h.insertionSort (queueRel queues))
          · rw [if_pos hadm] at hd'
            rcases List.mem_append.1 hd' with hd' | hd'
            · exact hacc d' hd'
            · rw [List.mem_singleton] at hd'
              subst hd'
              exact mergedDecomp_total hcur' hperm'
          · rw [if_neg hadm] at hd'
            exact hacc d' hd'

theorem getD_map_of_lt {f : α → β} {l : List α} {i : Nat} (d : β)
    (h : i < l.length) : (l.map f).getD i d = f (l[i]) := by
  rw [List.getD_eq_getElem _ _ (by simpa using h)]
  exact List.getElem_map _

theorem decompTotal_single_run (r : AdjacentTupleSizes) :
    decompTotal [r] = r.sum := by
  simp [decompTotal]

theorem subsequent_decomposition_ordering_total {shape : PlayRequirements}
    {b : Bool} (hne : ∀ r ∈ shape, r ≠ []) :
    ∀ d ∈ subsequent_decomposition_ordering shape b,
      decompTotal d = decompTotal shape := by
  intro d hd
  unfold subsequent_decomposition_ordering at hd
  have hguard : shape.any (fun r => r.isEmpty) = false := by
    rw [List.any_eq_false]
    intro r hr h
    exact hne r hr (List.isEmpty_iff.1 h)
  rw [hguard] at hd
  simp only [Bool.false_eq_true, if_false] at hd
  have hL : (shape.map sortDesc).length = shape.length := List.length_map ..
  have htot := @subseqLoop_total ((shape.map sortDesc).map List.sum)
    ((((shape.map sortDesc).map initialQueue).map List.length).sum + 1)
    ((shape.map sortDesc).map fun a => b || a.length > 1)
    ((shape.map sortDesc).map initialQueue)
    ((shape.map sortDesc).map fun r => [r])
    (List.range (shape.map sortDesc).length) []
    (by simp) (by simp)
    (by
      intro i hi e he
      have hi' : i < (shape.map sortDesc).length := by simpa using hi
      rw [getD_map_of_lt [] hi'] at he
      rw [getD_map_of_lt 0 hi']
      exact decompTotal_of_mem_full_decomposition_ordering
        (mem_dropThroughMatch he))
    (by
      intro i hi
      have hi' : i < (shape.map sortDesc).length := by simpa using hi
      rw [getD_map_of_lt [] hi', getD_map_of_lt 0 hi']
      exact decompTotal_single_run _)
    (by simp)
    (by intro d' hd'; cases hd')
    d hd
  rw [htot]
  rw [List.map_map]
  have hcongr : (shape.map (List.sum ∘ sortDesc)) = shape.map (fun r => r.sum) :=
    List.map_congr_left fun r _ => (sortDesc_perm r).sum_eq
  rw [hcongr]
  rfl

theorem subsequent_decomposition_ordering_of_empty_run {shape : PlayRequirements}
    {b : Bool} (h : ∃ r ∈ shape, r = []) :
    subsequent_decomposition_ordering shape b = [] := by
  unfold subsequent_decomposition_ordering
  rw [if_pos]
  rw [List.any_eq_true]
  obtain ⟨r, hr, rfl⟩ := h
  exact ⟨[], hr, rfl⟩

/-! The claims. -/

/-- Claim C1: for every `n ≥ 1`, every entry of `full_decomposition_ordering n`
has runs whose tuple sizes sum to `n`; the first entry is always `[[n]]`; the
lists for `n = 1` and `n = 2` are exactly `[[[1]]]` and `[[[2]], [[1], [1]]]`;
and no two entries of the result are equal as unordered collections of runs. -/
theorem full_decomposition_ordering_claim :
    (∀ n : Nat, 1 ≤ n →
      (∀ d ∈ full_decomposition_ordering n, decompTotal d = n) ∧
      (full_decomposition_ordering n).head? = some [[n]] ∧
      (full_decomposition_ordering n).Pairwise fun d e => ¬ List.Perm d e) ∧
    full_decomposition_ordering 1 = [[[1]]] ∧
    full_decomposition_ordering 2 = [[[2]], [[1], [1]]] := by
  refine ⟨fun n hn => ⟨fun d hd => ?_, ?_, ?_⟩, by decide, by decide⟩
  · exact decompTotal_of_mem_full_decomposition_ordering hd
  · exact full_decomposition_ordering_head n hn
  · exact full_decomposition_ordering_pairwise_not_perm n

/-- Witness for C1 at `n = 3`: the first entry of the list is `[[3]]` and a
concrete member has total card count `3`. -/
theorem full_decomposition_ordering_claim_witness :
    (full_decomposition_ordering 3).head? = some [[3]] ∧
      decompTotal ((full_decomposition_ordering 3).getD 1 []) = 3 :=
  ⟨(full_decomposition_ordering_claim.1 3 (by decide)).2.1,
    (full_decomposition_ordering_claim.1 3 (by decide)).1 _ (by decide)⟩

/-- Claim C2: `subsequent_decomposition_ordering [[4]] false` is exactly the
four-element sequence without `[[2, 2]]`, and the `true` variant inserts
`[[2, 2]]` between `[[3], [1]]` and `[[2], [2]]`. -/
theorem subsequent_decomposition_ordering_four_claim :
    subsequent_decomposition_ordering [[4]] false =
      [[[3], [1]], [[2], [2]], [[2], [1], [1]], [[1], [1], [1], [1]]] ∧
    [[2, 2]] ∉ subsequent_decomposition_ordering [[4]] false ∧
    subsequent_decomposition_ordering [[4]] true =
      [[[3], [1]], [[2, 2]], [[2], [2]], [[2], [1], [1]],
        [[1], [1], [1], [1]]] := by
  decide

/-- Claim C3: for every `n ≥ 1`, every entry of `find_tuple_partitions n` is a
descending sequence of positive parts summing to `n`, the list has no
duplicates, `find_tuple_partitions 4` is the expected five partitions, and
`find_tuple_partitions 6` has `p(6) = 11` entries. -/
theorem find_tuple_partitions_claim :
    (∀ n : Nat, 1 ≤ n →
      (∀ p ∈ find_tuple_partitions n,
        p.sum = n ∧ (∀ x ∈ p, 1 ≤ x) ∧ List.Sorted (· ≥ ·) p) ∧
      (find_tuple_partitions n).Nodup) ∧
    find_tuple_partitions 4 = [[4], [3, 1], [2, 2], [2, 1, 1], [1, 1, 1, 1]] ∧
    (find_tuple_partitions 6).length = 11 := by
  refine ⟨fun n _ => ⟨find_tuple_partitions_inv n, find_tuple_partitions_nodup n⟩,
    by decide, by decide⟩

/-- Witness for C3 at `n = 5`: the partition list is duplicate-free and its
second entry sums to `5`. -/
theorem find_tuple_partitions_claim_witness :
    (find_tuple_partitions 5).Nodup ∧
      ((find_tuple_partitions 5).getD 1 []).sum = 5 :=
  ⟨(find_tuple_partitions_claim.1 5 (by decide)).2,
    ((find_tuple_partitions_claim.1 5 (by decide)).1 _ (by decide)).1⟩

/-- Claim C4: for every `k ≥ 1`, `compute_adjacent_assignments k` has exactly
`bell k` entries and every entry is a set partition of `{0, …, k-1}` (its
clusters flatten to a permutation of `range k`, so each label appears exactly
once); `compute_adjacent_assignments 4` has 15 entries; and
`compute_adjacent_assignments 3` is exactly the expected five clusterings in
order. -/
theorem compute_adjacent_assignments_claim :
    (∀ k : Nat, 1 ≤ k →
      (compute_adjacent_assignments k).length = bell k ∧
      ∀ a ∈ compute_adjacent_assignments k,
        List.Perm a.flatten (List.range k)) ∧
    (compute_adjacent_assignments 4).length = 15 ∧
    compute_adjacent_assignments 3 =
      [[[0, 1, 2]], [[0, 1], [2]], [[0, 2], [1]], [[0], [1, 2]],
        [[0], [1], [2]]] := by
  refine ⟨fun k hk => ⟨compute_adjacent_assignments_length k hk,
    fun a ha => (compute_adjacent_assignments_inv k a ha).1⟩, by decide, by decide⟩

/-- Witness for C4 at `k = 5`: the assignment list has exactly `bell 5 = 52`
entries. -/
theorem compute_adjacent_assignments_claim_witness :
    (compute_adjacent_assignments 5).length = bell 5 :=
  (compute_adjacent_assignments_claim.1 5 (by decide)).1

/-- Counterexample to Claim C5 as stated: at `values = [3, 2, 3]` (all sizes
greater than 1), the code's output is *not* the spec's reference construction
with deduplication "as unordered run-collections" — the code keeps both
`[[2, 3], [3]]` and `[[3], [2, 3]]`, which are permutations of each other. -/
theorem group_into_sequential_tuples_counterexample :
    group_into_sequential_tuples [3, 2, 3] ≠
      sequentialRunsSpecUnordered [3, 2, 3] := by
  decide

/-- Claim C5 as amended: `group_into_sequential_tuples` equals the spec's
reference construction (per-cluster: one run for an all-equal cluster, else
every distinct permutation; cross product over clusters; flatten across
clusterings) when the final deduplication is by exact equality of ordered run
lists rather than as unordered run-collections; and the six expected members
appear for `values = [3, 2, 2]`. -/
theorem group_into_sequential_tuples_claim :
    (∀ values : List Nat,
      group_into_sequential_tuples values = sequentialRunsSpecOrdered values) ∧
    [[3, 2, 2]] ∈ group_into_sequential_tuples [3, 2, 2] ∧
    [[2, 3, 2]] ∈ group_into_sequential_tuples [3, 2, 2] ∧
    [[2, 2, 3]] ∈ group_into_sequential_tuples [3, 2, 2] ∧
    [[3, 2], [2]] ∈ group_into_sequential_tuples [3, 2, 2] ∧
    [[2, 3], [2]] ∈ group_into_sequential_tuples [3, 2, 2] ∧
    [[3], [2], [2]] ∈ group_into_sequential_tuples [3, 2, 2] :=
  ⟨group_into_sequential_tuples_eq_spec_ordered, by decide, by decide, by decide,
    by decide, by decide, by decide⟩

/-- Claim C6: for every shape whose runs are all non-empty and either flag
value, every emitted decomposition has the same total card count as the input
shape. -/
theorem subsequent_decomposition_ordering_total_claim :
    ∀ (shape : PlayRequirements) (b : Bool), (∀ r ∈ shape, r ≠ []) →
      ∀ d ∈ subsequent_decomposition_ordering shape b,
        decompTotal d = decompTotal shape :=
  fun _ _ hne => subsequent_decomposition_ordering_total hne

/-- Witness for C6 at shape `[[2], [3]]` with the flag set: the first emitted
decomposition has total card count `5`. -/
theorem subsequent_decomposition_ordering_total_claim_witness :
    decompTotal ((subsequent_decomposition_ordering [[2], [3]] true).getD 0 []) =
      decompTotal [[2], [3]] :=
  subsequent_decomposition_ordering_total_claim [[2], [3]] true (by decide) _
    (by decide)

/-- Claim C7: a shape containing an empty run yields the empty sequence (not a
failure), and for every `1 ≤ i ≤ 24` a shape of `i` singleton size-1 runs
yields the empty sequence under either flag value. -/
theorem subsequent_decomposition_ordering_empty_claim :
    (∀ (shape : PlayRequirements) (b : Bool), (∃ r ∈ shape, r = []) →
      subsequent_decomposition_ordering shape b = []) ∧
    (∀ i, i < 25 → 1 ≤ i → ∀ b : Bool,
      subsequent_decomposition_ordering (List.replicate i [1]) b = []) :=
  ⟨fun _ _ h => subsequent_decomposition_ordering_of_empty_run h, by decide⟩

/-- Witness for C7: concrete instances with an empty run and with 24 singleton
runs. -/
theorem subsequent_decomposition_ordering_empty_claim_witness :
    subsequent_decomposition_ordering [[], [2]] true = [] ∧
      subsequent_decomposition_ordering (List.replicate 24 [1]) false = [] :=
  ⟨subsequent_decomposition_ordering_empty_claim.1 [[], [2]] true (by decide),
    subsequent_decomposition_ordering_empty_claim.2 24 (by decide) (by decide)
      false⟩

/-- Claim C9: the `assert!`-guarded enumerators fail (return `none` in the
`Option` model of the assertion) on input `0`, and for every input `≥ 1` the
assertion-failure branch is unreachable: the checked wrappers return the
unchecked results. -/
theorem checked_assertions_claim :
    find_tuple_partitions_checked 0 = none ∧
    compute_adjacent_assignments_checked 0 = none ∧
    full_decomposition_ordering_checked 0 = none ∧
    ∀ n : Nat, 1 ≤ n →
      find_tuple_partitions_checked n = some (find_tuple_partitions n) ∧
      compute_adjacent_assignments_checked n =
        some (compute_adjacent_assignments n) ∧
      full_decomposition_ordering_checked n =
        some (full_decomposition_ordering n) := by
  refine ⟨rfl, rfl, rfl, fun n hn => ⟨?_, ?_, ?_⟩⟩
  · rw [find_tuple_partitions_checked, if_pos hn]
  · rw [compute_adjacent_assignments_checked, if_pos hn]
  · rw [full_decomposition_ordering_checked, if_pos hn]

/-- Witness for C9 at `n = 1`. -/
theorem checked_assertions_claim_witness :
    find_tuple_partitions_checked 1 = some (find_tuple_partitions 1) :=
  (checked_assertions_claim.2.2.2 1 (by decide)).1

/-- Claim C10: on the empty shape (no runs at all) the function returns the
empty sequence without failing, under either flag value. -/
theorem subsequent_decomposition_ordering_empty_shape_claim :
    subsequent_decomposition_ordering [] true = [] ∧
    subsequent_decomposition_ordering [] false = [] :=
  ⟨rfl, rfl⟩
